import Mathlib

/-!
Verification of the e-Faktur validation service core (`main.py`).

The development embeds the pure core of the service over `List Char` /
`String`:

* `preprocess_ocr_text` — the OCR text normalizer (regex substitutions are
  embedded as run-collapsing functions and literal `str.replace`);
* a small backtracking regex engine (`RE`, `parses`, `reSearch`,
  `reFindAll`) reproducing Python `re` semantics (leftmost position,
  alternation priority, greedy classes with backtracking) for the concrete
  patterns the extractor uses;
* `parse_fields_core` / `parse_pdf_fields` — the field extractor;
* `fetch_djp_data` — the mock reference fetcher (the parsed form of
  `MOCK_DJP_XML`);
* `compare_fields` — the reconciler;
* `validate_efaktur` — the orchestrator, with the OCR/QR collaborators as
  function parameters and errors as `Except` values.
-/

namespace EFaktur

/-- Python `\s` (whitespace) on ASCII text: space, tab, newline, carriage
return, vertical tab, form feed. -/
def pySpace (c : Char) : Bool :=
  c == ' ' || c == '\t' || c == '\n' || c == '\r' || c == '\x0b' || c == '\x0c'

/-- ASCII characters, the class `[\x00-\x7F]` of the normalizer. -/
def isAsciiCh (c : Char) : Bool := c.toNat ≤ 0x7F

/-- The newline-run class `[\r\n]` of the normalizer. -/
def pNL (c : Char) : Bool := c == '\r' || c == '\n'

/-- The horizontal-whitespace class `[ \t]` of the normalizer. -/
def pST (c : Char) : Bool := c == ' ' || c == '\t'

/-- The space class `[ ]` of the normalizer's final collapse. -/
def pSP (c : Char) : Bool := c == ' '

/-- Python `str.replace(old, new)`: replace the leftmost occurrences of
`old`, non-overlapping, scanning left to right.  Fuel-based so that the
kernel can evaluate it; `fuel = s.length` always suffices since every step
consumes at least one character. -/
def replaceAllF (pat rep : List Char) : Nat → List Char → List Char
  | 0, s => s
  | fuel + 1, s =>
    if pat ≠ [] ∧ pat.isPrefixOf s then
      rep ++ replaceAllF pat rep fuel (s.drop pat.length)
    else
      match s with
      | [] => []
      | c :: t => c :: replaceAllF pat rep fuel t

/-- Python `str.replace(old, new)` with the fuel instantiated. -/
def replaceAll (pat rep s : List Char) : List Char :=
  replaceAllF pat rep s.length s

/-- Python `re.sub(r'X+', rep, s)` for a character class `X`: every maximal
run of class characters is replaced by the single character `rep`. -/
def collapseRunsF (p : Char → Bool) (rep : Char) : Nat → List Char → List Char
  | 0, s => s
  | _ + 1, [] => []
  | fuel + 1, c :: t =>
    if p c then rep :: collapseRunsF p rep fuel (t.dropWhile p)
    else c :: collapseRunsF p rep fuel t

/-- Run collapsing with the fuel instantiated. -/
def collapseRuns (p : Char → Bool) (rep : Char) (s : List Char) : List Char :=
  collapseRunsF p rep s.length s

/-- The normalizer `preprocess_ocr_text` of `main.py` on character lists:
newline runs collapsed, space/tab runs collapsed, the five literal OCR
corrections (the `NPWP |` replacement appears twice in the source), removal
of non-ASCII characters, and a final collapse of space runs. -/
def preprocessL (s : List Char) : List Char :=
  let s1 := collapseRuns pNL '\n' s
  let s2 := collapseRuns pST ' ' s1
  let s3 := replaceAll ("Sen Faktur".toList) ("Seri Faktur".toList) s2
  let s4 := replaceAll ("NPWP |".toList) ("NPWP :".toList) s3
  let s5 := replaceAll ("NPWP |".toList) ("NPWP :".toList) s4
  let s6 := replaceAll ("NPWP :".toList) ("NPWP:".toList) s5
  let s7 := replaceAll ("NIKPaspor".toList) ("NIK/Paspor".toList) s6
  let s8 := replaceAll ("Palak".toList) ("Pajak".toList) s7
  let s9 := s8.filter isAsciiCh
  collapseRuns pSP ' ' s9

/-- The normalizer on strings, as `preprocess_ocr_text` receives and
returns `str`. -/
def preprocess_ocr_text (s : String) : String :=
  String.mk (preprocessL s.data)

/-! ## A regex engine for the extractor's patterns

The abstract syntax covers exactly the constructs used by `main.py`:
literals (case sensitive and insensitive), greedy star/plus/bounded
repetition of a character class, alternation, concatenation and numbered
capture groups.  `parses` enumerates candidate matches in Python's
backtracking priority order (greedy repetitions longest first, left
alternative first), so the head of the list is the match Python commits
to. -/

inductive RE where
  | lit : List Char → RE
  | litCI : List Char → RE
  | star : (Char → Bool) → RE
  | plus : (Char → Bool) → RE
  | repN : (Char → Bool) → Nat → Nat → RE
  | alt : RE → RE → RE
  | seq : RE → RE → RE
  | group : Nat → RE → RE

/-- Case-insensitive prefix test for ASCII literals. -/
def isPrefixOfCI : List Char → List Char → Bool
  | [], _ => true
  | _ :: _, [] => false
  | a :: as, b :: bs => (a.toLower == b.toLower) && isPrefixOfCI as bs

/-- Descending list `[n, n-1, ..., m]` (empty when `n < m`): the order in
which a greedy bounded repetition tries its lengths. -/
def descRange (m n : Nat) : List Nat :=
  (List.range' m (n + 1 - m)).reverse

/-- All candidate matches of a regex at the start of `s`, in backtracking
priority order.  Each candidate is the list of captured groups together
with the remaining suffix of `s`. -/
def parses : RE → List Char → List (List (Nat × List Char) × List Char)
  | .lit l, s => if l.isPrefixOf s then [([], s.drop l.length)] else []
  | .litCI l, s => if isPrefixOfCI l s then [([], s.drop l.length)] else []
  | .star p, s =>
    (descRange 0 ((s.takeWhile p).length)).map (fun k => ([], s.drop k))
  | .plus p, s =>
    (descRange 1 ((s.takeWhile p).length)).map (fun k => ([], s.drop k))
  | .repN p m M, s =>
    (descRange m (min ((s.takeWhile p).length) M)).map (fun k => ([], s.drop k))
  | .alt a b, s => parses a s ++ parses b s
  | .seq a b, s =>
    (parses a s).flatMap
      (fun gr => (parses b gr.2).map (fun gr2 => (gr.1 ++ gr2.1, gr2.2)))
  | .group i r, s =>
    (parses r s).map
      (fun gr => ((i, s.take (s.length - gr.2.length)) :: gr.1, gr.2))

/-- `re.search`: the leftmost match, with Python's priority at each start
position.  Returns the start index, the captured groups and the match
length. -/
def reSearchGo (r : RE) : List Char → Option (Nat × List (Nat × List Char) × Nat)
  | [] =>
    match (parses r []).head? with
    | some (g, _) => some (0, g, 0)
    | none => none
  | c :: t =>
    match (parses r (c :: t)).head? with
    | some (g, rest) => some (0, g, (c :: t).length - rest.length)
    | none => (reSearchGo r t).map (fun x => (x.1 + 1, x.2.1, x.2.2))

/-- `re.search` over a character list. -/
def reSearch (r : RE) (s : List Char) : Option (Nat × List (Nat × List Char) × Nat) :=
  reSearchGo r s

/-- `re.finditer`: repeated `re.search`, resuming after the end of each
match (advancing one character past a zero-length match, as Python does).
Returns the captured groups of every match, in order. -/
def reFindAllGo (r : RE) : Nat → List Char → List (List (Nat × List Char))
  | 0, _ => []
  | fuel + 1, s =>
    match reSearch r s with
    | none => []
    | some (i, g, len) => g :: reFindAllGo r fuel (s.drop (i + max len 1))

/-- `re.finditer` with the fuel instantiated. -/
def reFindAll (r : RE) (s : List Char) : List (List (Nat × List Char)) :=
  reFindAllGo r (s.length + 1) s

/-- Captured content of group `i` of a match. -/
def groupGet (g : List (Nat × List Char)) (i : Nat) : List Char :=
  (g.lookup i).getD []

/-! ## The extractor's character classes and patterns -/

/-- The separator class `[\s:|\-]` used throughout the patterns. -/
def sepC (c : Char) : Bool := pySpace c || c == ':' || c == '|' || c == '-'

/-- The class `[0-9.\-]` of the tax-ID and invoice-number captures. -/
def numC (c : Char) : Bool := c.isDigit || c == '.' || c == '-'

/-- The class `[A-Z0-9 .,&-]` of the name capture (case sensitive: the
`extract_nama` search carries no flag). -/
def namaC (c : Char) : Bool :=
  c.isUpper || c.isDigit || c == ' ' || c == '.' || c == ',' || c == '&' || c == '-'

/-- The class `[0-9.,]` of the amount captures. -/
def amtC (c : Char) : Bool := c.isDigit || c == '.' || c == ','

/-- The class `[A-Z]` under `re.IGNORECASE`: ASCII letters of either
case. -/
def alphaC (c : Char) : Bool := c.isAlpha

/-- `r'NPWP[\s:|\-]*([0-9.\-]+)'` of `extract_npwp`. -/
def npwpRE : RE :=
  .seq (.lit ("NPWP".toList)) (.seq (.star sepC) (.group 1 (.plus numC)))

/-- `r'Nama[\s:|\-]*([A-Z0-9 .,&-]+)'` of `extract_nama`. -/
def namaRE : RE :=
  .seq (.lit ("Nama".toList)) (.seq (.star sepC) (.group 1 (.plus namaC)))

/-- The `nomorFaktur` pattern
`r'(?:Kode dan Nomor Seri Faktur Pajak|Nomor[\s:|\-]*Faktur)[\s:|\-]*([0-9.\-]+[ ]*[0-9]+)'`
compiled with `re.IGNORECASE`. -/
def nomorRE : RE :=
  .seq
    (.alt (.litCI ("Kode dan Nomor Seri Faktur Pajak".toList))
      (.seq (.litCI ("Nomor".toList)) (.seq (.star sepC) (.litCI ("Faktur".toList)))))
    (.seq (.star sepC)
      (.group 1 (.seq (.plus numC) (.seq (.star (fun c => c == ' ')) (.plus Char.isDigit)))))

/-- The primary `tanggalFaktur` pattern
`r'(?:Tanggal[\s:|\-]*Faktur|,\s*)(\d{1,2}/\d{1,2}/\d{4})'` compiled with
`re.IGNORECASE`.  Note that no separator stands between the alternation
and the capture: the slash date must immediately follow `Faktur` or the
comma-and-whitespace prefix. -/
def tanggalRE : RE :=
  .seq
    (.alt (.seq (.litCI ("Tanggal".toList)) (.seq (.star sepC) (.litCI ("Faktur".toList))))
      (.seq (.lit [',']) (.star pySpace)))
    (.group 1 (.seq (.repN Char.isDigit 1 2) (.seq (.lit ['/'])
      (.seq (.repN Char.isDigit 1 2) (.seq (.lit ['/']) (.repN Char.isDigit 4 4))))))

/-- `r'Dasar Pengenaan Pajak[\s:|\-]*([0-9.,]+)'` with `re.IGNORECASE`. -/
def dppRE : RE :=
  .seq (.litCI ("Dasar Pengenaan Pajak".toList))
    (.seq (.star sepC) (.group 1 (.plus amtC)))

/-- `r'Total PPN[\s:|\-]*([0-9.,]+)'` with `re.IGNORECASE`. -/
def ppnRE : RE :=
  .seq (.litCI ("Total PPN".toList)) (.seq (.star sepC) (.group 1 (.plus amtC)))

/-- The date fallback pattern `r',\s*(\d{1,2})\s+([A-Z]+)\s+(\d{4})'` with
`re.IGNORECASE`. -/
def match3RE : RE :=
  .seq (.lit [',']) (.seq (.star pySpace)
    (.seq (.group 1 (.repN Char.isDigit 1 2)) (.seq (.plus pySpace)
      (.seq (.group 2 (.plus alphaC)) (.seq (.plus pySpace)
        (.group 3 (.repN Char.isDigit 4 4)))))))

/-! ## The field extractor -/

/-- Python truthiness of an optional string: `None` and `''` are falsy. -/
def truthy : Option String → Bool
  | none => false
  | some s => !(s == "")

/-- `re.sub(r'[^0-9]', '', s)`. -/
def stripNonDigits (l : List Char) : List Char := l.filter Char.isDigit

/-- `re.sub(r'[\s.,]', '', s)`: the amount cleanup. -/
def stripAmtSeps (l : List Char) : List Char :=
  l.filter (fun c => !(pySpace c || c == '.' || c == ','))

/-- Python `str.strip()` on ASCII text. -/
def pyStrip (l : List Char) : List Char :=
  ((l.dropWhile pySpace).reverse.dropWhile pySpace).reverse

/-- `str.zfill(2)` on a digit string. -/
def zfill2 (l : List Char) : List Char :=
  List.replicate (2 - l.length) '0' ++ l

/-- The helper `extract_npwp` of `parse_pdf_fields`: search the tax-ID
pattern and strip every non-digit from the capture. -/
def extract_npwp (sec : List Char) : Option String :=
  match reSearch npwpRE sec with
  | some (_, g, _) => some (String.mk (stripNonDigits (groupGet g 1)))
  | none => none

/-- The helper `extract_nama` of `parse_pdf_fields`: search the name
pattern and trim the capture. -/
def extract_nama (sec : List Char) : Option String :=
  match reSearch namaRE sec with
  | some (_, g, _) => some (String.mk (pyStrip (groupGet g 1)))
  | none => none

/-- The fixed Indonesian month table `indo_months`. -/
def indo_months : List (String × String) :=
  [("JANUARI", "01"), ("FEBRUARI", "02"), ("MARET", "03"), ("APRIL", "04"),
   ("MEI", "05"), ("JUNI", "06"), ("JULI", "07"), ("AGUSTUS", "08"),
   ("SEPTEMBER", "09"), ("OKTOBER", "10"), ("NOVEMBER", "11"), ("DESEMBER", "12")]

/-- The seller section of the text: from the `Pengusaha Kena Pajak` marker
to the `Pembeli Barang Kena Pajak` marker (or to the end when the buyer
marker is missing); empty when the seller marker is missing. -/
def penjualSection (text : List Char) : List Char :=
  match reSearch (.litCI ("Pengusaha Kena Pajak".toList)) text,
        reSearch (.litCI ("Pembeli Barang Kena Pajak".toList)) text with
  | some p, some b => (text.drop p.1).take (b.1 - p.1)
  | some p, none => text.drop p.1
  | none, _ => []

/-- The buyer section of the text: from the `Pembeli Barang Kena Pajak`
marker to the end; empty when the marker is missing. -/
def pembeliSection (text : List Char) : List Char :=
  match reSearch (.litCI ("Pembeli Barang Kena Pajak".toList)) text with
  | some b => text.drop b.1
  | none => []

/-- Seller tax-ID: section first, whole text when the section is empty or
its extraction is falsy. -/
def npwpPenjualOf (text : List Char) : Option String :=
  let fromSection := if penjualSection text ≠ [] then extract_npwp (penjualSection text) else none
  if truthy fromSection then fromSection else extract_npwp text

/-- Seller name: section first, whole text when the section is empty or
its extraction is falsy. -/
def namaPenjualOf (text : List Char) : Option String :=
  let fromSection := if penjualSection text ≠ [] then extract_nama (penjualSection text) else none
  if truthy fromSection then fromSection else extract_nama text

/-- Buyer tax-ID: section first; when falsy, the second tax-ID occurrence
of the whole text (absent when fewer than two occurrences exist). -/
def npwpPembeliOf (text : List Char) : Option String :=
  let fromSection := if pembeliSection text ≠ [] then extract_npwp (pembeliSection text) else none
  if truthy fromSection then fromSection
  else
    match reFindAll npwpRE text with
    | _ :: g2 :: _ => some (String.mk (stripNonDigits (groupGet g2 1)))
    | _ => none

/-- Buyer name: section first; when falsy, the second name occurrence of
the whole text (absent when fewer than two occurrences exist). -/
def namaPembeliOf (text : List Char) : Option String :=
  let fromSection := if pembeliSection text ≠ [] then extract_nama (pembeliSection text) else none
  if truthy fromSection then fromSection
  else
    match reFindAll namaRE text with
    | _ :: g2 :: _ => some (String.mk (pyStrip (groupGet g2 1)))
    | _ => none

/-- Invoice number: search `nomorRE`, trim the capture, strip non-digits. -/
def nomorFakturOf (text : List Char) : Option String :=
  match reSearch nomorRE text with
  | some (_, g, _) => some (String.mk (stripNonDigits (pyStrip (groupGet g 1))))
  | none => none

/-- Invoice date: the primary pattern's capture, trimmed; otherwise the
comma-date fallback through the month table, reconstructed as zero-padded
`DD/MM/YYYY`; absent when both fail or the month name is unknown. -/
def tanggalFakturOf (text : List Char) : Option String :=
  match reSearch tanggalRE text with
  | some (_, g, _) => some (String.mk (pyStrip (groupGet g 1)))
  | none =>
    match reSearch match3RE text with
    | some (_, g, _) =>
      match indo_months.lookup (String.mk ((groupGet g 2).map Char.toUpper)) with
      | some m =>
        some (String.mk (zfill2 (groupGet g 1) ++ ['/'] ++ m.data ++ ['/'] ++ groupGet g 3))
      | none => none
    | none => none

/-- Tax base: search `dppRE`, trim, strip whitespace, dots and commas. -/
def jumlahDppOf (text : List Char) : Option String :=
  match reSearch dppRE text with
  | some (_, g, _) => some (String.mk (stripAmtSeps (pyStrip (groupGet g 1))))
  | none => none

/-- VAT amount: search `ppnRE`, trim, strip whitespace, dots and commas. -/
def jumlahPpnOf (text : List Char) : Option String :=
  match reSearch ppnRE text with
  | some (_, g, _) => some (String.mk (stripAmtSeps (pyStrip (groupGet g 1))))
  | none => none

/-- `parse_pdf_fields` after its internal normalization: the `fields`
dictionary as an association list in insertion order. -/
def parse_fields_core (text : List Char) : List (String × Option String) :=
  [("npwpPenjual", npwpPenjualOf text),
   ("namaPenjual", namaPenjualOf text),
   ("npwpPembeli", npwpPembeliOf text),
   ("namaPembeli", namaPembeliOf text),
   ("nomorFaktur", nomorFakturOf text),
   ("tanggalFaktur", tanggalFakturOf text),
   ("jumlahDpp", jumlahDppOf text),
   ("jumlahPpn", jumlahPpnOf text)]

/-- `parse_pdf_fields`: normalize, then extract every field. -/
def parse_pdf_fields (s : String) : List (String × Option String) :=
  parse_fields_core (preprocessL s.data)

/-! ## Reference fetcher -/

/-- The direct children of the parsed `MOCK_DJP_XML` document, each with
its text content, in document order. -/
def MOCK_DJP_children : List (String × Option String) :=
  [("kdJenisTransaksi", some "07"),
   ("fgPengganti", some "0"),
   ("nomorFaktur", some "0700002212345678"),
   ("tanggalFaktur", some "01/04/2022"),
   ("npwpPenjual", some "012345678012000"),
   ("namaPenjual", some "PT ABC"),
   ("alamatPenjual", some "Jalan Gatot Subroto No. 40A, Senayan, Kebayoran Baru, Jakarta Selatan 12910"),
   ("npwpLawanTransaksi", some "023456789217000"),
   ("namaLawanTransaksi", some "PT XYZ"),
   ("alamatLawanTransaksi", some "Jalan Kuda Laut No. 1, Sungai Jodoh, Batu Ampar, Batam 29444"),
   ("jumlahDpp", some "15000000"),
   ("jumlahPpn", some "1650000"),
   ("jumlahPpnBm", some "0"),
   ("statusApproval", some "Faktur Valid, Sudah Diapprove oleh DJP"),
   ("statusFaktur", some "Faktur Pajak Normal"),
   ("referensi", some "123/ABC/IV/2022"),
   ("detailTransaksi", some "\n")]

/-- The table-driven schema mapping `field_mapping` of `fetch_djp_data`. -/
def field_mapping : List (String × String) :=
  [("npwpPenjual", "npwpPenjual"),
   ("namaPenjual", "namaPenjual"),
   ("npwpPembeli", "npwpLawanTransaksi"),
   ("namaPembeli", "namaLawanTransaksi"),
   ("nomorFaktur", "nomorFaktur"),
   ("tanggalFaktur", "tanggalFaktur"),
   ("jumlahDpp", "jumlahDpp"),
   ("jumlahPpn", "jumlahPpn")]

/-- `fetch_djp_data`: look each mapped tag up among the children of the
static mock document (`root.find`), ignoring the identifier. -/
def fetch_djp_data (_qr_url : Option String) : List (String × Option String) :=
  field_mapping.map (fun pf =>
    (pf.1, match MOCK_DJP_children.lookup pf.2 with
           | some txt => txt
           | none => none))

/-! ## Reconciler -/

/-- A reported deviation, as the dictionaries `compare_fields` appends. -/
structure Deviation where
  field : String
  pdf_value : Option String
  djp_api_value : Option String
  deviation_type : String
deriving DecidableEq

/-- The fixed field list `compare_fields` iterates, in its stable order. -/
def fieldOrder : List String :=
  ["npwpPenjual", "namaPenjual", "npwpPembeli", "namaPembeli",
   "nomorFaktur", "tanggalFaktur", "jumlahDpp", "jumlahPpn"]

/-- `dict.get(field)`: `None` both for a missing key and for a key bound
to `None`. -/
def dictGet (d : List (String × Option String)) (k : String) : Option String :=
  (d.lookup k).join

/-- The body of one `compare_fields` iteration: the `if/elif` chain
classifying one field, `none` when the loop `continue`s. -/
def devFor (f : String) (p d : Option String) : Option Deviation :=
  if p = none ∧ d ≠ none then some ⟨f, p, d, "missing_in_pdf"⟩
  else if p ≠ none ∧ d = none then some ⟨f, p, d, "missing_in_api"⟩
  else if p ≠ d then some ⟨f, p, d, "mismatch"⟩
  else none

/-- `compare_fields`: classify every field of the fixed list in order,
collecting the deviations. -/
def compare_fields (pdf_data djp_data : List (String × Option String)) : List Deviation :=
  fieldOrder.filterMap (fun f => devFor f (dictGet pdf_data f) (dictGet djp_data f))

/-! ## Orchestrator -/

/-- An `HTTPException(status_code, detail)` raised by the pipeline. -/
structure HTTPErr where
  status_code : Nat
  detail : String
deriving DecidableEq

/-- `is_image_file`: case-insensitive `.jpg`/`.jpeg`/`.png` extension. -/
def is_image_file (filename : String) : Bool :=
  (".jpg".data.isSuffixOf (filename.data.map Char.toLower)) ||
  (".jpeg".data.isSuffixOf (filename.data.map Char.toLower)) ||
  (".png".data.isSuffixOf (filename.data.map Char.toLower))

/-- `is_pdf_file`: case-insensitive `.pdf` extension. -/
def is_pdf_file (filename : String) : Bool :=
  ".pdf".data.isSuffixOf (filename.data.map Char.toLower)

/-- The response payload assembled by `validate_efaktur`. -/
structure ValidationResult where
  status : String
  message : String
  deviations : List Deviation
  validated_data : List (String × Option String)
  extracted_data : List (String × Option String)
  raw_ocr_text : String
  qr_url : Option String
deriving DecidableEq

/-- `validate_efaktur` with the OCR/QR collaborators as parameters over an
abstract type of file contents: dispatch on the extension, reject empty
extracted text, then extract, fetch, reconcile and assemble.  The QR
helpers catch their own exceptions in the source and return `None`, so
they appear as total functions. -/
def validate_efaktur {B : Type}
    (extract_text_from_pdf : B → Except HTTPErr String)
    (extract_text_from_image : B → Except HTTPErr String)
    (extract_qr_code_from_pdf : B → Option String)
    (extract_qr_code_from_image : B → Option String)
    (file_content : B) (filename : String) : Except HTTPErr ValidationResult :=
  let stage :=
    if is_pdf_file filename then
      match extract_text_from_pdf file_content with
      | .error e => Except.error e
      | .ok t =>
        if t = "" then Except.error ⟨400, "No text found in PDF"⟩
        else Except.ok (t, parse_pdf_fields t, extract_qr_code_from_pdf file_content)
    else if is_image_file filename then
      match extract_text_from_image file_content with
      | .error e => Except.error e
      | .ok t =>
        if t = "" then Except.error ⟨400, "No text found in image"⟩
        else Except.ok (t, parse_pdf_fields t, extract_qr_code_from_image file_content)
    else Except.error ⟨400, "Only PDF and JPG/PNG files are supported"⟩
  match stage with
  | .error e => Except.error e
  | .ok (text, pdf_data, qr_url) =>
    let djp_data := fetch_djp_data qr_url
    let deviations := compare_fields pdf_data djp_data
    if deviations ≠ [] then
      let n := deviations.length
      Except.ok ⟨"validated_with_deviations",
        "Found " ++ toString n ++ " deviation(s) in e-Faktur data",
        deviations, djp_data, pdf_data, text, qr_url⟩
    else
      Except.ok ⟨"validated_successfully", "E-Faktur data matches DJP records",
        deviations, djp_data, pdf_data, text, qr_url⟩

/-! ## Chunk view of `replaceAll`

`chunks pat s` lists the maximal segments of `s` between the
pattern occurrences that the left-to-right scan of `replaceAll`
replaces, so that `replaceAll pat rep s` equals those segments
interleaved with `rep` (`joinSep`).  This view supports the
normalizer's idempotence analysis. -/

/-- The segments of `s` between the pattern occurrences replaced by the
scan of `replaceAll`, in order (always at least one segment). -/
def chunksF (pat : List Char) : Nat → List Char → List (List Char)
  | 0, s => [s]
  | fuel + 1, s =>
    if pat ≠ [] ∧ pat.isPrefixOf s then [] :: chunksF pat fuel (s.drop pat.length)
    else
      match s with
      | [] => [[]]
      | c :: t =>
        match chunksF pat fuel t with
        | [] => [[c]]
        | h :: r => (c :: h) :: r

/-- Chunk decomposition with the fuel instantiated. -/
def chunks (pat s : List Char) : List (List Char) :=
  chunksF pat s.length s

/-- Interleave a separator between segments: `joinSep rep [c₁, ..., cₙ]`
is `c₁ ++ rep ++ c₂ ++ rep ++ ... ++ cₙ`. -/
def joinSep (rep : List Char) : List (List Char) → List Char
  | [] => []
  | [c] => c
  | c :: c' :: cs => c ++ rep ++ joinSep rep (c' :: cs)

/-- Adjacent-pair relation: no two neighbouring characters both satisfy
`p`.  `List.Chain' (notBoth p)` states a list has no run of two or more
`p`-characters. -/
def notBoth (p : Char → Bool) (a b : Char) : Prop :=
  ¬(p a = true ∧ p b = true)

/-- Boolean check that no two neighbouring characters both satisfy `p`
(kernel-computable witness for `List.Chain' (notBoth p)`). -/
def chainB (p : Char → Bool) : List Char → Bool
  | [] => true
  | [_] => true
  | a :: b :: t => (!(p a && p b)) && chainB p (b :: t)

/-- The border conditions under which replacing with `rep` can never
create an occurrence of `q`: `q` occurs in no replacement, no nonempty
suffix of `rep` starts `q`, no nonempty prefix of `rep` ends `q`, and
`rep` does not occur inside `q`. -/
@[reducible] def AvoidConds (q rep : List Char) : Prop :=
  ¬ q <:+: rep ∧ (∀ v ∈ rep.tails, v ≠ [] → ¬ v <+: q) ∧
  (∀ v ∈ rep.inits, v ≠ [] → ¬ v <:+ q) ∧ ¬ rep <:+: q

/-- The normalizer invariant carried through its stages: all characters
ASCII, no carriage return, no tab, no two adjacent newline-class
characters, no two adjacent space/tab-class characters. -/
def StageInv (l : List Char) : Prop :=
  (∀ a ∈ l, isAsciiCh a = true) ∧
  (∀ a ∈ l, pNL a = true → a = '\n') ∧
  (∀ a ∈ l, pST a = true → a = ' ') ∧
  l.Chain' (notBoth pNL) ∧
  l.Chain' (notBoth pST)

/-- The facts about a replacement string that make a `replaceAll` step
preserve `StageInv`: nonempty, ASCII, no carriage returns or tabs, no
adjacent newline or space runs, and non-whitespace boundary characters. -/
@[reducible] def RepInv (rep : List Char) : Prop :=
  rep ≠ [] ∧ (∀ a ∈ rep, isAsciiCh a = true) ∧
  (∀ a ∈ rep, pNL a = true → a = '\n') ∧
  (∀ a ∈ rep, pST a = true → a = ' ') ∧
  chainB pNL rep = true ∧ chainB pST rep = true ∧
  (∀ a ∈ rep.head?, pNL a = false ∧ pST a = false) ∧
  (∀ a ∈ rep.getLast?, pNL a = false ∧ pST a = false)


/-! ## Helper definitions for the statements -/

/-- Swapping the two value slots renames the two missing-kinds and fixes
`mismatch`. -/
def swapDevType (t : String) : String :=
  if t = "missing_in_pdf" then "missing_in_api"
  else if t = "missing_in_api" then "missing_in_pdf"
  else t

/-- A deviation with its two values exchanged and its type renamed by
`swapDevType`. -/
def swapDev (d : Deviation) : Deviation :=
  ⟨d.field, d.djp_api_value, d.pdf_value, swapDevType d.deviation_type⟩

/-- A document text whose extraction agrees with the mock reference record
on all 8 fields. -/
def agreeText : String :=
  "Pengusaha Kena Pajak\nNPWP: 012345678012000\nNama: PT ABC\nPembeli Barang Kena Pajak\nNPWP: 023456789217000\nNama: PT XYZ\nKode dan Nomor Seri Faktur Pajak: 0700002212345678\nDasar Pengenaan Pajak: 15.000.000\nTotal PPN: 1.650.000\nJakarta, 1 APRIL 2022"

/-- The successful result the orchestrator assembles for `agreeText`. -/
def resultOk : ValidationResult :=
  ⟨"validated_successfully", "E-Faktur data matches DJP records", [],
   fetch_djp_data none, parse_pdf_fields agreeText, agreeText, none⟩

/-! ## Reconciler lemmas -/

theorem devFor_field {f : String} {p d : Option String} {dev : Deviation}
    (h : devFor f p d = some dev) : dev.field = f := by
  unfold devFor at h
  split_ifs at h
  all_goals injection h with h
  all_goals exact h ▸ rfl

theorem devFor_self (f : String) (x : Option String) : devFor f x x = none := by
  unfold devFor
  cases x <;> simp

theorem devFor_djp_some {f : String} {p d : Option String} {dev : Deviation}
    (h : devFor f p d = some dev) (hd : d ≠ none) :
    dev.deviation_type ≠ "missing_in_api" := by
  unfold devFor at h
  split_ifs at h with h1 h2
  · injection h with h
    subst h
    show ¬ "missing_in_pdf" = "missing_in_api"
    decide
  · exact absurd h2.2 hd
  · injection h with h
    subst h
    show ¬ "mismatch" = "missing_in_api"
    decide

theorem compare_map_field_sublist (pdf djp : List (String × Option String)) :
    ∀ l : List String,
      ((l.filterMap (fun f => devFor f (dictGet pdf f) (dictGet djp f))).map
        Deviation.field).Sublist l := by
  intro l
  induction l with
  | nil => simp
  | cons a t ih =>
    rw [List.filterMap_cons]
    cases h : devFor a (dictGet pdf a) (dictGet djp a) with
    | none => exact ih.cons a
    | some dev =>
      rw [List.map_cons, devFor_field h]
      exact ih.cons₂ a

theorem length_filter_field_le_one :
    ∀ l : List Deviation, (l.map Deviation.field).Nodup →
      ∀ f, (l.filter (fun d => d.field = f)).length ≤ 1 := by
  intro l
  induction l with
  | nil => simp
  | cons d t ih =>
    intro hnd f
    rw [List.map_cons, List.nodup_cons] at hnd
    by_cases hd : d.field = f
    · have ht : t.filter (fun d => d.field = f) = [] := by
        rw [List.filter_eq_nil_iff]
        intro a ha haf
        exact hnd.1 (hd ▸ (by simpa using haf) ▸ List.mem_map_of_mem Deviation.field ha)
      simp [List.filter_cons, hd, ht]
    · simpa [List.filter_cons, hd] using ih hnd.2 f

theorem compare_fields_agree (pdf djp : List (String × Option String))
    (h : ∀ f ∈ fieldOrder, dictGet pdf f = dictGet djp f) :
    compare_fields pdf djp = [] := by
  unfold compare_fields
  rw [List.filterMap_eq_nil_iff]
  intro f hf
  rw [h f hf]
  exact devFor_self f (dictGet djp f)

/-- C1: `compare_fields` walks the fixed 8-field list in its stable order
and classifies each field: both absent, no deviation; extracted absent and
reference present, `missing_in_pdf`; extracted present and reference
absent, `missing_in_api`; both present and unequal, `mismatch`; both
present and equal, no deviation.  Hence at most 8 deviations and each
field at most once. -/
theorem C1_compare_fields_classification (pdf djp : List (String × Option String)) :
    ((compare_fields pdf djp).map Deviation.field).Sublist fieldOrder ∧
    (compare_fields pdf djp).length ≤ 8 ∧
    (∀ f : String, ((compare_fields pdf djp).filter (fun d => d.field = f)).length ≤ 1) ∧
    (∀ f ∈ fieldOrder,
      (dictGet pdf f = none → dictGet djp f = none →
        ∀ d ∈ compare_fields pdf djp, d.field ≠ f) ∧
      (∀ v, dictGet pdf f = none → dictGet djp f = some v →
        Deviation.mk f none (some v) "missing_in_pdf" ∈ compare_fields pdf djp) ∧
      (∀ v, dictGet pdf f = some v → dictGet djp f = none →
        Deviation.mk f (some v) none "missing_in_api" ∈ compare_fields pdf djp) ∧
      (∀ v w, dictGet pdf f = some v → dictGet djp f = some w → v ≠ w →
        Deviation.mk f (some v) (some w) "mismatch" ∈ compare_fields pdf djp) ∧
      (∀ v, dictGet pdf f = some v → dictGet djp f = some v →
        ∀ d ∈ compare_fields pdf djp, d.field ≠ f)) := by
  have hsub := compare_map_field_sublist pdf djp fieldOrder
  have hnd : ((compare_fields pdf djp).map Deviation.field).Nodup :=
    (by decide : fieldOrder.Nodup).sublist hsub
  refine ⟨hsub, ?_, fun f => length_filter_field_le_one _ hnd f, ?_⟩
  · have := hsub.length_le
    simpa [fieldOrder] using this
  · intro f hf
    have habsent : ∀ (hp : dictGet pdf f = dictGet djp f),
        ∀ d ∈ compare_fields pdf djp, d.field ≠ f := by
      intro hp d hd hdf
      obtain ⟨a, ha, hdev⟩ := List.mem_filterMap.mp hd
      have : a = f := (devFor_field hdev) ▸ hdf
      subst this
      rw [hp, devFor_self] at hdev
      exact Option.noConfusion hdev
    refine ⟨?_, ?_, ?_, ?_, ?_⟩
    · intro hp hd
      exact habsent (hp.trans hd.symm)
    · intro v hp hd
      refine List.mem_filterMap.mpr ⟨f, hf, ?_⟩
      rw [hp, hd]
      simp [devFor]
    · intro v hp hd
      refine List.mem_filterMap.mpr ⟨f, hf, ?_⟩
      rw [hp, hd]
      simp [devFor]
    · intro v w hp hd hvw
      refine List.mem_filterMap.mpr ⟨f, hf, ?_⟩
      rw [hp, hd]
      simp [devFor, hvw]
    · intro v hp hd
      exact habsent (hp.trans hd.symm)

/-- Witness for C1 at concrete mappings. -/
theorem C1_compare_fields_classification_witness :
    Deviation.mk "npwpPenjual" (some "1") none "missing_in_api" ∈
      compare_fields [("npwpPenjual", some "1")] [] ∧
    (compare_fields [("npwpPenjual", some "1")] []).length ≤ 8 := by
  have h := C1_compare_fields_classification [("npwpPenjual", some "1")] []
  exact ⟨(h.2.2.2 "npwpPenjual" (by decide)).2.2.1 "1" (by decide) (by decide), h.2.1⟩

theorem devFor_swap (f : String) (p d : Option String) :
    devFor f d p = (devFor f p d).map swapDev := by
  unfold devFor swapDev swapDevType
  rcases p with _ | v <;> rcases d with _ | w
  · simp
  · simp
  · simp
  · by_cases hvw : v = w
    · subst hvw
      simp
    · simp [hvw, Ne.symm hvw]

/-- C7: swapping the two arguments of `compare_fields` yields deviations
for exactly the same fields in the same order, with the two missing-kinds
exchanged, `mismatch` kept, and the two values of every deviation
swapped. -/
theorem C7_compare_fields_swap (a b : List (String × Option String)) :
    compare_fields b a = (compare_fields a b).map swapDev := by
  unfold compare_fields
  rw [List.map_filterMap]
  exact List.filterMap_congr (fun f _ => devFor_swap f (dictGet a f) (dictGet b f))

/-- C9: the extractor's result binds exactly the 8 field names, in the
fixed order, for every input text. -/
theorem C9_parse_fields_keys (t : List Char) (s : String) :
    (parse_fields_core t).map Prod.fst = fieldOrder ∧
    (parse_pdf_fields s).map Prod.fst = fieldOrder := by
  constructor <;> rfl

/-- C10: the mock reference record binds all 8 mapped fields to present
values whatever the identifier, so no deviation this implementation
produces is ever `missing_in_api`. -/
theorem C10_no_missing_in_api (qr : Option String) (pdf : List (String × Option String)) :
    (∀ f ∈ fieldOrder, dictGet (fetch_djp_data qr) f ≠ none) ∧
    (∀ d ∈ compare_fields pdf (fetch_djp_data qr), d.deviation_type ≠ "missing_in_api") := by
  have hq : fetch_djp_data qr = fetch_djp_data none := rfl
  constructor
  · intro f hf
    rw [hq]
    fin_cases hf <;> decide
  · intro d hd
    obtain ⟨f, hf, hdev⟩ := List.mem_filterMap.mp hd
    rw [hq] at hdev
    fin_cases hf <;> exact devFor_djp_some hdev (by decide)

/-- Witness for C10 at a concrete identifier and mapping. -/
theorem C10_no_missing_in_api_witness :
    dictGet (fetch_djp_data none) "npwpPenjual" ≠ none :=
  (C10_no_missing_in_api none []).1 "npwpPenjual" (by decide)

/-- C2: whenever `validate_efaktur` completes without error, the status is
`validated_successfully` exactly when the deviation list is empty; and
when the extracted fields agree with the reference record on all 8 fields,
the status is `validated_successfully` with an empty deviation list. -/
theorem C2_status_iff_deviations {B : Type}
    (etp eti : B → Except HTTPErr String) (qp qi : B → Option String)
    (file : B) (fn : String) (r : ValidationResult)
    (h : validate_efaktur etp eti qp qi file fn = Except.ok r) :
    (r.status = "validated_successfully" ↔ r.deviations = []) ∧
    ((∀ f ∈ fieldOrder, dictGet r.extracted_data f = dictGet r.validated_data f) →
      r.status = "validated_successfully" ∧ r.deviations = []) := by
  unfold validate_efaktur at h
  simp only [] at h
  split at h
  · exact Except.noConfusion h
  · rename_i text pdf_data qr_url hstage
    split at h
    · rename_i hne
      injection h with h
      subst h
      refine ⟨⟨fun hs => absurd hs ?_, fun hd => absurd hd hne⟩, fun hag => ?_⟩
      · show ¬ "validated_with_deviations" = "validated_successfully"
        decide
      · exact absurd (compare_fields_agree pdf_data (fetch_djp_data qr_url) hag) hne
    · rename_i hne
      have hdev : compare_fields pdf_data (fetch_djp_data qr_url) = [] := by
        by_contra hc
        exact hne hc
      injection h with h
      subst h
      exact ⟨⟨fun _ => hdev, fun _ => rfl⟩, fun _ => ⟨rfl, hdev⟩⟩

set_option maxRecDepth 8000 in
/-- Witness for C2 at a concrete validation request agreeing with the mock
record on all 8 fields. -/
theorem C2_status_iff_deviations_witness :
    resultOk.status = "validated_successfully" ↔ resultOk.deviations = [] :=
  (C2_status_iff_deviations (fun _ : Unit => Except.ok agreeText) (fun _ => Except.ok "")
    (fun _ => none) (fun _ => none) () "faktur.pdf" resultOk (by rfl)).1

/-- C8: an unsupported extension (such as `.txt`) is rejected with a 400
error before any extraction runs; empty extracted text is rejected with a
400 error; and every non-error outcome carries one of exactly the two
success statuses — no partial result exists. -/
theorem C8_rejection_and_outcomes {B : Type}
    (etp eti : B → Except HTTPErr String) (qp qi : B → Option String)
    (file : B) (fn : String) :
    (¬(is_pdf_file fn = true ∨ is_image_file fn = true) →
      validate_efaktur etp eti qp qi file fn =
        Except.error ⟨400, "Only PDF and JPG/PNG files are supported"⟩) ∧
    (is_pdf_file fn = true → etp file = Except.ok "" →
      validate_efaktur etp eti qp qi file fn =
        Except.error ⟨400, "No text found in PDF"⟩) ∧
    (is_pdf_file fn = false → is_image_file fn = true → eti file = Except.ok "" →
      validate_efaktur etp eti qp qi file fn =
        Except.error ⟨400, "No text found in image"⟩) ∧
    (∀ r, validate_efaktur etp eti qp qi file fn = Except.ok r →
      r.status = "validated_successfully" ∨ r.status = "validated_with_deviations") := by
  refine ⟨?_, ?_, ?_, ?_⟩
  · intro hno
    have hp : is_pdf_file fn = false := by
      cases hcase : is_pdf_file fn
      · rfl
      · exact absurd (Or.inl hcase) hno
    have hi : is_image_file fn = false := by
      cases hcase : is_image_file fn
      · rfl
      · exact absurd (Or.inr hcase) hno
    unfold validate_efaktur
    rw [hp, hi]
    rfl
  · intro hp he
    unfold validate_efaktur
    rw [hp, he]
    rfl
  · intro hp hi he
    unfold validate_efaktur
    rw [hp, hi, he]
    rfl
  · intro r h
    unfold validate_efaktur at h
    simp only [] at h
    split at h
    · exact Except.noConfusion h
    · split at h
      · injection h with h
        subst h
        exact Or.inr rfl
      · injection h with h
        subst h
        exact Or.inl rfl

/-- Witness for C8: a `.txt` upload is rejected whatever the collaborators
would have returned. -/
theorem C8_rejection_and_outcomes_witness :
    validate_efaktur (fun _ : Unit => Except.ok "text") (fun _ => Except.ok "text")
      (fun _ => none) (fun _ => none) () "scan.txt" =
      Except.error ⟨400, "Only PDF and JPG/PNG files are supported"⟩ :=
  (C8_rejection_and_outcomes (fun _ : Unit => Except.ok "text") (fun _ => Except.ok "text")
    (fun _ => none) (fun _ => none) () "scan.txt").1 (by decide)

/-- C4: whenever the buyer section yields no (truthy) tax-ID, the buyer
tax-ID comes from the second tax-ID occurrence of the whole text with
non-digits stripped, and is absent when fewer than two occurrences exist;
likewise the buyer name from the second name occurrence, trimmed. -/
theorem C4_buyer_fallback (text : List Char) :
    (∀ g2, truthy (if pembeliSection text ≠ [] then extract_npwp (pembeliSection text) else none) = false →
      (reFindAll npwpRE text)[1]? = some g2 →
      npwpPembeliOf text = some (String.mk (stripNonDigits (groupGet g2 1)))) ∧
    (truthy (if pembeliSection text ≠ [] then extract_npwp (pembeliSection text) else none) = false →
      (reFindAll npwpRE text).length ≤ 1 → npwpPembeliOf text = none) ∧
    (∀ g2, truthy (if pembeliSection text ≠ [] then extract_nama (pembeliSection text) else none) = false →
      (reFindAll namaRE text)[1]? = some g2 →
      namaPembeliOf text = some (String.mk (pyStrip (groupGet g2 1)))) ∧
    (truthy (if pembeliSection text ≠ [] then extract_nama (pembeliSection text) else none) = false →
      (reFindAll namaRE text).length ≤ 1 → namaPembeliOf text = none) := by
  refine ⟨?_, ?_, ?_, ?_⟩
  · intro g2 hfalsy hget
    unfold npwpPembeliOf
    simp only [hfalsy, Bool.false_eq_true, if_false]
    rcases hl : reFindAll npwpRE text with _ | ⟨a, _ | ⟨b, rest⟩⟩ <;> rw [hl] at hget
    · exact Option.noConfusion hget
    · exact Option.noConfusion hget
    · simp only [List.getElem?_cons_succ, List.getElem?_cons_zero] at hget
      injection hget with hget
      subst hget
      rfl
  · intro hfalsy hlen
    unfold npwpPembeliOf
    simp only [hfalsy, Bool.false_eq_true, if_false]
    rcases hl : reFindAll npwpRE text with _ | ⟨a, _ | ⟨b, rest⟩⟩ <;> rw [hl] at hlen
    all_goals first
      | rfl
      | simp at hlen
  · intro g2 hfalsy hget
    unfold namaPembeliOf
    simp only [hfalsy, Bool.false_eq_true, if_false]
    rcases hl : reFindAll namaRE text with _ | ⟨a, _ | ⟨b, rest⟩⟩ <;> rw [hl] at hget
    · exact Option.noConfusion hget
    · exact Option.noConfusion hget
    · simp only [List.getElem?_cons_succ, List.getElem?_cons_zero] at hget
      injection hget with hget
      subst hget
      rfl
  · intro hfalsy hlen
    unfold namaPembeliOf
    simp only [hfalsy, Bool.false_eq_true, if_false]
    rcases hl : reFindAll namaRE text with _ | ⟨a, _ | ⟨b, rest⟩⟩ <;> rw [hl] at hlen
    all_goals first
      | rfl
      | simp at hlen

/-- Witness for C4: scenario A — a seller section, no buyer marker, and a
second tax-ID/name occurrence, so both buyer fields come from the
occurrence at index 1. -/
theorem C4_buyer_fallback_witness :
    npwpPembeliOf ("Pengusaha Kena Pajak NPWP: 012345678012000\nNama: PT ABC\nNPWP: 023456789217000\nNama: PT XYZ".toList) = some "023456789217000" ∧
    namaPembeliOf ("Pengusaha Kena Pajak NPWP: 012345678012000\nNama: PT ABC\nNPWP: 023456789217000\nNama: PT XYZ".toList) = some "PT XYZ" := by
  have h := C4_buyer_fallback ("Pengusaha Kena Pajak NPWP: 012345678012000\nNama: PT ABC\nNPWP: 023456789217000\nNama: PT XYZ".toList)
  constructor
  · exact (h.1 [(1, ("023456789217000".toList))] (by decide) (by decide)).trans (by decide)
  · exact (h.2.2.1 [(1, ("PT XYZ".toList))] (by decide) (by decide)).trans (by decide)

/-- C5 counterexample: a text whose seller section is non-empty and
contains no tax-ID match, while a tax-ID occurrence stands before the
marker — the claim says `npwpPenjual` must be absent, but the code falls
back to the whole text and extracts `123`. -/
theorem C5_counterexample :
    penjualSection ("NPWP: 123 Pengusaha Kena Pajak foo".toList) ≠ [] ∧
    extract_npwp (penjualSection ("NPWP: 123 Pengusaha Kena Pajak foo".toList)) = none ∧
    npwpPenjualOf ("NPWP: 123 Pengusaha Kena Pajak foo".toList) = some "123" := by
  decide

/-- C5 (amended): seller tax-ID and name come from the seller section when
it is non-empty and its match is truthy; when the section is empty, or the
section yields no match (or an empty capture), the whole text is searched
instead. -/
theorem C5_section_preference (text : List Char) :
    (∀ v, penjualSection text ≠ [] → extract_npwp (penjualSection text) = some v → v ≠ "" →
      npwpPenjualOf text = some v) ∧
    (penjualSection text = [] → npwpPenjualOf text = extract_npwp text) ∧
    (extract_npwp (penjualSection text) = none → npwpPenjualOf text = extract_npwp text) ∧
    (extract_npwp (penjualSection text) = some "" → npwpPenjualOf text = extract_npwp text) ∧
    (∀ v, penjualSection text ≠ [] → extract_nama (penjualSection text) = some v → v ≠ "" →
      namaPenjualOf text = some v) ∧
    (penjualSection text = [] → namaPenjualOf text = extract_nama text) ∧
    (extract_nama (penjualSection text) = none → namaPenjualOf text = extract_nama text) ∧
    (extract_nama (penjualSection text) = some "" → namaPenjualOf text = extract_nama text) := by
  refine ⟨?_, ?_, ?_, ?_, ?_, ?_, ?_, ?_⟩
  · intro v hsec hex hv
    unfold npwpPenjualOf
    simp only [hsec, if_true, hex, ne_eq, not_false_iff, ite_true, truthy]
    have : (v == "") = false := by
      cases hb : v == ""
      · rfl
      · exact absurd (by simpa using hb) hv
    simp [this]
  · intro hsec
    unfold npwpPenjualOf
    simp [hsec, truthy]
  · intro hex
    unfold npwpPenjualOf
    by_cases hsec : penjualSection text = [] <;> simp [hsec, hex, truthy]
  · intro hex
    unfold npwpPenjualOf
    by_cases hsec : penjualSection text = [] <;> simp [hsec, hex, truthy]
  · intro v hsec hex hv
    unfold namaPenjualOf
    simp only [hsec, if_true, hex, ne_eq, not_false_iff, ite_true, truthy]
    have : (v == "") = false := by
      cases hb : v == ""
      · rfl
      · exact absurd (by simpa using hb) hv
    simp [this]
  · intro hsec
    unfold namaPenjualOf
    simp [hsec, truthy]
  · intro hex
    unfold namaPenjualOf
    by_cases hsec : penjualSection text = [] <;> simp [hsec, hex, truthy]
  · intro hex
    unfold namaPenjualOf
    by_cases hsec : penjualSection text = [] <;> simp [hsec, hex, truthy]

/-- Witness for C5 (amended): on the counterexample text the seller
tax-ID is taken from the whole text. -/
theorem C5_section_preference_witness :
    npwpPenjualOf ("NPWP: 123 Pengusaha Kena Pajak foo".toList) =
      extract_npwp ("NPWP: 123 Pengusaha Kena Pajak foo".toList) :=
  (C5_section_preference ("NPWP: 123 Pengusaha Kena Pajak foo".toList)).2.2.1 (by decide)

/-- C6: the primary date pattern only matches a slash date that follows
`Faktur` with no separator at all (or follows a comma); on the claim's own
example `Tanggal Faktur 01/04/2022` the extractor therefore yields no
date, diverging from the claim.  The comma-month fallback and the
unknown-month absence behave as claimed. -/
theorem C6_date_extraction :
    tanggalFakturOf ("Tanggal Faktur 01/04/2022".toList) = none ∧
    dictGet (parse_pdf_fields "Tanggal Faktur 01/04/2022") "tanggalFaktur" = none ∧
    tanggalFakturOf ("Tanggal Faktur01/04/2022".toList) = some "01/04/2022" ∧
    tanggalFakturOf (", 1 APRIL 2022".toList) = some "01/04/2022" ∧
    tanggalFakturOf (", 1 FOOBAR 2022".toList) = none := by
  decide

/-! ## Equations for the fuel-based rewriting functions -/

theorem replaceAllF_nil (pat rep : List Char) (f : Nat) : replaceAllF pat rep f [] = [] := by
  cases f with
  | zero => rfl
  | succ f =>
    rw [replaceAllF]
    split
    · rename_i hc
      exact absurd (List.prefix_nil.mp ( List.isPrefixOf_iff_prefix.mp hc.2)) hc.1
    · rfl

theorem replaceAllF_eq (pat rep : List Char) :
    ∀ f g s, s.length ≤ f → s.length ≤ g →
      replaceAllF pat rep f s = replaceAllF pat rep g s := by
  intro f
  induction f with
  | zero =>
    intro g s hf _
    have hs : s = [] := List.length_eq_zero.mp (Nat.le_zero.mp hf)
    subst hs
    rw [replaceAllF_nil, replaceAllF_nil]
  | succ f ih =>
    intro g s hf hg
    cases s with
    | nil => rw [replaceAllF_nil, replaceAllF_nil]
    | cons c t =>
      cases g with
      | zero => exact absurd hg (by simp)
      | succ g =>
        rw [replaceAllF, replaceAllF]
        by_cases hc : pat ≠ [] ∧ pat.isPrefixOf (c :: t)
        · rw [if_pos hc, if_pos hc]
          refine congrArg (rep ++ ·) (ih _ _ ?_ ?_) <;>
          · have hp : 1 ≤ pat.length := by
              cases hpat : pat with
              | nil => exact absurd hpat hc.1
              | cons a l => simp
            simp only [List.length_drop, List.length_cons] at *
            omega
        · rw [if_neg hc, if_neg hc]
          exact congrArg (c :: ·) (ih _ _ (by simpa using hf) (by simpa using hg))

theorem replaceAll_nil (pat rep : List Char) : replaceAll pat rep [] = [] :=
  replaceAllF_nil pat rep 0

theorem replaceAll_cons (pat rep : List Char) (c : Char) (t : List Char) :
    replaceAll pat rep (c :: t) =
      if pat ≠ [] ∧ pat.isPrefixOf (c :: t) then
        rep ++ replaceAll pat rep ((c :: t).drop pat.length)
      else c :: replaceAll pat rep t := by
  show replaceAllF pat rep (t.length + 1) (c :: t) = _
  rw [replaceAllF]
  by_cases hc : pat ≠ [] ∧ pat.isPrefixOf (c :: t)
  · rw [if_pos hc, if_pos hc]
    refine congrArg (rep ++ ·) (replaceAllF_eq pat rep _ _ _ ?_ le_rfl)
    have hp : 1 ≤ pat.length := by
      cases hpat : pat with
      | nil => exact absurd hpat hc.1
      | cons a l => simp
    simp only [List.length_drop, List.length_cons]
    omega
  · rw [if_neg hc, if_neg hc]
    rfl

theorem collapseRunsF_nil (p : Char → Bool) (rep : Char) (f : Nat) :
    collapseRunsF p rep f [] = [] := by
  cases f <;> rfl

theorem collapseRunsF_eq (p : Char → Bool) (rep : Char) :
    ∀ f g s, s.length ≤ f → s.length ≤ g →
      collapseRunsF p rep f s = collapseRunsF p rep g s := by
  intro f
  induction f with
  | zero =>
    intro g s hf _
    have hs : s = [] := List.length_eq_zero.mp (Nat.le_zero.mp hf)
    subst hs
    rw [collapseRunsF_nil, collapseRunsF_nil]
  | succ f ih =>
    intro g s hf hg
    cases s with
    | nil => rw [collapseRunsF_nil, collapseRunsF_nil]
    | cons c t =>
      cases g with
      | zero => exact absurd hg (by simp)
      | succ g =>
        rw [collapseRunsF, collapseRunsF]
        by_cases hc : p c
        · rw [if_pos hc, if_pos hc]
          refine congrArg (rep :: ·) (ih _ _ ?_ ?_) <;>
          · have := (List.dropWhile_suffix (l := t) p).length_le
            simp only [List.length_cons] at *
            omega
        · rw [if_neg hc, if_neg hc]
          exact congrArg (c :: ·) (ih _ _ (by simpa using hf) (by simpa using hg))

theorem collapseRuns_nil (p : Char → Bool) (rep : Char) : collapseRuns p rep [] = [] := rfl

theorem collapseRuns_cons (p : Char → Bool) (rep : Char) (c : Char) (t : List Char) :
    collapseRuns p rep (c :: t) =
      if p c then rep :: collapseRuns p rep (t.dropWhile p)
      else c :: collapseRuns p rep t := by
  show collapseRunsF p rep (t.length + 1) (c :: t) = _
  rw [collapseRunsF]
  by_cases hc : p c
  · rw [if_pos hc, if_pos hc]
    refine congrArg (rep :: ·) (collapseRunsF_eq p rep _ _ _ ?_ le_rfl)
    exact (List.dropWhile_suffix (l := t) p).length_le
  · rw [if_neg hc, if_neg hc]
    rfl

theorem chunksF_nil (pat : List Char) (f : Nat) : chunksF pat f [] = [[]] := by
  cases f with
  | zero => rfl
  | succ f =>
    rw [chunksF]
    split
    · rename_i hc
      exact absurd (List.prefix_nil.mp ( List.isPrefixOf_iff_prefix.mp hc.2)) hc.1
    · rfl

theorem chunksF_eq (pat : List Char) :
    ∀ f g s, s.length ≤ f → s.length ≤ g → chunksF pat f s = chunksF pat g s := by
  intro f
  induction f with
  | zero =>
    intro g s hf _
    have hs : s = [] := List.length_eq_zero.mp (Nat.le_zero.mp hf)
    subst hs
    rw [chunksF_nil, chunksF_nil]
  | succ f ih =>
    intro g s hf hg
    cases s with
    | nil => rw [chunksF_nil, chunksF_nil]
    | cons c t =>
      cases g with
      | zero => exact absurd hg (by simp)
      | succ g =>
        rw [chunksF, chunksF]
        by_cases hc : pat ≠ [] ∧ pat.isPrefixOf (c :: t)
        · rw [if_pos hc, if_pos hc]
          refine congrArg (List.cons []) (ih _ _ ?_ ?_) <;>
          · have hp : 1 ≤ pat.length := by
              cases hpat : pat with
              | nil => exact absurd hpat hc.1
              | cons a l => simp
            simp only [List.length_drop, List.length_cons] at *
            omega
        · rw [if_neg hc, if_neg hc]
          rw [ih g t (by simpa using hf) (by simpa using hg)]

theorem chunks_nil (pat : List Char) : chunks pat [] = [[]] := chunksF_nil pat 0

theorem chunks_cons (pat : List Char) (c : Char) (t : List Char) :
    chunks pat (c :: t) =
      if pat ≠ [] ∧ pat.isPrefixOf (c :: t) then
        [] :: chunks pat ((c :: t).drop pat.length)
      else
        match chunks pat t with
        | [] => [[c]]
        | h :: r => (c :: h) :: r := by
  show chunksF pat (t.length + 1) (c :: t) = _
  rw [chunksF]
  by_cases hc : pat ≠ [] ∧ pat.isPrefixOf (c :: t)
  · rw [if_pos hc, if_pos hc]
    refine congrArg (List.cons []) (chunksF_eq pat _ _ _ ?_ le_rfl)
    have hp : 1 ≤ pat.length := by
      cases hpat : pat with
      | nil => exact absurd hpat hc.1
      | cons a l => simp
    simp only [List.length_drop, List.length_cons]
    omega
  · rw [if_neg hc, if_neg hc]
    rfl

/-! ## Decomposing occurrences across appends -/

theorem front_append_split {v x y : List Char} (h : v <+: x ++ y) :
    v <+: x ∨ ∃ w, v = x ++ w ∧ w <+: y := by
  obtain ⟨t, ht⟩ := h
  rcases List.append_eq_append_iff.mp ht with ⟨a, hx, _⟩ | ⟨c, hv, hy⟩
  · exact Or.inl ⟨a, hx.symm⟩
  · exact Or.inr ⟨c, hv, ⟨t, hy.symm⟩⟩

theorem back_append_split {u x y : List Char} (h : u <:+ x ++ y) :
    u <:+ y ∨ ∃ w, u = w ++ y ∧ w <:+ x := by
  obtain ⟨s, hs⟩ := h
  rcases List.append_eq_append_iff.mp hs with ⟨a, hx, huy⟩ | ⟨c, _, hy⟩
  · exact Or.inr ⟨a, huy, ⟨s, hx.symm⟩⟩
  · exact Or.inl ⟨c, hy.symm⟩

theorem middle_append_split {q x y : List Char} (h : q <:+: x ++ y) :
    q <:+: x ∨ q <:+: y ∨
      ∃ u v, u ≠ [] ∧ v ≠ [] ∧ q = u ++ v ∧ u <:+ x ∧ v <+: y := by
  obtain ⟨s, t, hst⟩ := h
  rcases List.append_eq_append_iff.mp hst with ⟨a, hx, _⟩ | ⟨c, hsq, hy⟩
  · exact Or.inl ⟨s, a, hx.symm⟩
  · rcases List.append_eq_append_iff.mp hsq with ⟨a, hx, hq⟩ | ⟨c'', _, hc⟩
    · rcases eq_or_ne a [] with rfl | ha
      · refine Or.inr (Or.inl ⟨[], t, ?_⟩)
        rw [hy, hq]
        simp
      · rcases eq_or_ne c [] with rfl | hc2
        · refine Or.inl ⟨s, [], ?_⟩
          rw [hx, hq]
          simp
        · exact Or.inr (Or.inr ⟨a, c, ha, hc2, hq, ⟨s, hx.symm⟩, ⟨t, hy.symm⟩⟩)
    · refine Or.inr (Or.inl ⟨c'', t, ?_⟩)
      rw [hy, hc]

/-! ## Chunk facts -/

theorem chunks_ne_nil (pat s : List Char) : chunks pat s ≠ [] := by
  cases s with
  | nil =>
    rw [chunks_nil]
    simp
  | cons c t =>
    rw [chunks_cons]
    split
    · simp
    · cases chunks pat t <;> simp

theorem replaceAll_eq_joinSep_aux (pat rep : List Char) (hpat : pat ≠ []) :
    ∀ n s, s.length ≤ n → replaceAll pat rep s = joinSep rep (chunks pat s) := by
  intro n
  induction n with
  | zero =>
    intro s hs
    have h0 : s = [] := List.length_eq_zero.mp (Nat.le_zero.mp hs)
    subst h0
    rw [replaceAll_nil, chunks_nil]
    rfl
  | succ n ih =>
    intro s hs
    cases s with
    | nil =>
      rw [replaceAll_nil, chunks_nil]
      rfl
    | cons c t =>
      by_cases hc : pat ≠ [] ∧ pat.isPrefixOf (c :: t)
      · rw [replaceAll_cons, if_pos hc, chunks_cons, if_pos hc]
        have hlen : ((c :: t).drop pat.length).length ≤ n := by
          have hp : 1 ≤ pat.length := by
            cases hpat2 : pat with
            | nil => exact absurd hpat2 hc.1
            | cons a l => simp
          simp only [List.length_drop, List.length_cons] at *
          omega
        rw [ih _ hlen]
        cases hcd : chunks pat ((c :: t).drop pat.length) with
        | nil => exact absurd hcd (chunks_ne_nil pat _)
        | cons h r =>
          show rep ++ joinSep rep (h :: r) = joinSep rep ([] :: h :: r)
          simp [joinSep]
      · rw [replaceAll_cons, if_neg hc, chunks_cons, if_neg hc]
        rw [ih t (by simpa using hs)]
        cases hct : chunks pat t with
        | nil => exact absurd hct (chunks_ne_nil pat t)
        | cons h r =>
          cases r with
          | nil => rfl
          | cons r0 rs =>
            show c :: joinSep rep (h :: r0 :: rs) = joinSep rep ((c :: h) :: r0 :: rs)
            simp [joinSep]

theorem replaceAll_eq_joinSep (pat rep : List Char) (hpat : pat ≠ []) (s : List Char) :
    replaceAll pat rep s = joinSep rep (chunks pat s) :=
  replaceAll_eq_joinSep_aux pat rep hpat s.length s le_rfl

theorem chunks_head_starts (pat : List Char) :
    ∀ n s, s.length ≤ n → ∃ h r, chunks pat s = h :: r ∧ h <+: s := by
  intro n
  induction n with
  | zero =>
    intro s hs
    have h0 : s = [] := List.length_eq_zero.mp (Nat.le_zero.mp hs)
    subst h0
    exact ⟨[], [], chunks_nil pat, List.nil_prefix⟩
  | succ n ih =>
    intro s hs
    cases s with
    | nil => exact ⟨[], [], chunks_nil pat, List.nil_prefix⟩
    | cons c t =>
      by_cases hc : pat ≠ [] ∧ pat.isPrefixOf (c :: t)
      · rw [chunks_cons, if_pos hc]
        exact ⟨[], _, rfl, List.nil_prefix⟩
      · rw [chunks_cons, if_neg hc]
        obtain ⟨h, r, hct, hp⟩ := ih t (by simpa using hs)
        rw [hct]
        obtain ⟨t', ht'⟩ := hp
        exact ⟨c :: h, r, rfl, ⟨t', by rw [List.cons_append, ht']⟩⟩

theorem chunks_within (pat : List Char) :
    ∀ n s, s.length ≤ n → ∀ c ∈ chunks pat s, c <:+: s := by
  intro n
  induction n with
  | zero =>
    intro s hs c hc
    have h0 : s = [] := List.length_eq_zero.mp (Nat.le_zero.mp hs)
    subst h0
    rw [chunks_nil] at hc
    simp only [List.mem_singleton] at hc
    subst hc
    exact List.nil_infix
  | succ n ih =>
    intro s hs c hc
    cases s with
    | nil =>
      rw [chunks_nil] at hc
      simp only [List.mem_singleton] at hc
      subst hc
      exact List.nil_infix
    | cons c0 t =>
      by_cases hcnd : pat ≠ [] ∧ pat.isPrefixOf (c0 :: t)
      · rw [chunks_cons, if_pos hcnd] at hc
        rcases List.mem_cons.mp hc with rfl | hmem
        · exact List.nil_infix
        · have hlen : ((c0 :: t).drop pat.length).length ≤ n := by
            have hp : 1 ≤ pat.length := by
              cases hpat2 : pat with
              | nil => exact absurd hpat2 hcnd.1
              | cons a l => simp
            simp only [List.length_drop, List.length_cons] at *
            omega
          exact (ih _ hlen c hmem).trans (List.drop_suffix pat.length (c0 :: t)).isInfix
      · rw [chunks_cons, if_neg hcnd] at hc
        obtain ⟨h, r, hct, hp⟩ := chunks_head_starts pat n t (by simpa using hs)
        rw [hct] at hc
        rcases List.mem_cons.mp hc with rfl | hmem
        · obtain ⟨t', ht'⟩ := hp
          exact List.IsPrefix.isInfix ⟨t', by rw [List.cons_append, ht']⟩
        · exact List.infix_cons (ih t (by simpa using hs) c (hct ▸ List.mem_cons_of_mem h hmem))

theorem chunks_avoid (pat : List Char) (hpat : pat ≠ []) :
    ∀ n s, s.length ≤ n → ∀ c ∈ chunks pat s, ¬ pat <:+: c := by
  intro n
  induction n with
  | zero =>
    intro s hs c hc hinf
    have h0 : s = [] := List.length_eq_zero.mp (Nat.le_zero.mp hs)
    subst h0
    rw [chunks_nil] at hc
    simp only [List.mem_singleton] at hc
    subst hc
    exact hpat (List.infix_nil.mp hinf)
  | succ n ih =>
    intro s hs c hc hinf
    cases s with
    | nil =>
      rw [chunks_nil] at hc
      simp only [List.mem_singleton] at hc
      subst hc
      exact hpat (List.infix_nil.mp hinf)
    | cons c0 t =>
      by_cases hcnd : pat ≠ [] ∧ pat.isPrefixOf (c0 :: t)
      · rw [chunks_cons, if_pos hcnd] at hc
        rcases List.mem_cons.mp hc with rfl | hmem
        · exact hpat (List.infix_nil.mp hinf)
        · have hlen : ((c0 :: t).drop pat.length).length ≤ n := by
            have hp : 1 ≤ pat.length := by
              cases hpat2 : pat with
              | nil => exact absurd hpat2 hcnd.1
              | cons a l => simp
            simp only [List.length_drop, List.length_cons] at *
            omega
          exact ih _ hlen c hmem hinf
      · have hnp : ¬ pat <+: (c0 :: t) := by
          intro hp
          exact hcnd ⟨hpat, List.isPrefixOf_iff_prefix.mpr hp⟩
        rw [chunks_cons, if_neg hcnd] at hc
        obtain ⟨h, r, hct, hp⟩ := chunks_head_starts pat n t (by simpa using hs)
        rw [hct] at hc
        rcases List.mem_cons.mp hc with rfl | hmem
        · rcases List.infix_cons_iff.mp hinf with hpre | hinf'
          · obtain ⟨t', ht'⟩ := hp
            exact hnp (hpre.trans ⟨t', by rw [List.cons_append, ht']⟩)
          · exact ih t (by simpa using hs) h (hct ▸ List.mem_cons_self h r) hinf'
        · exact ih t (by simpa using hs) c (hct ▸ List.mem_cons_of_mem h hmem) hinf

/-! ## The master no-occurrence lemma -/

theorem avoid_joinSep (q rep : List Char) (hq : q ≠ [])
    (hrep : ¬ q <:+: rep)
    (hK1 : ∀ v ∈ rep.tails, v ≠ [] → ¬ v <+: q)
    (hK2 : ∀ v ∈ rep.inits, v ≠ [] → ¬ v <:+ q)
    (hK3 : ¬ rep <:+: q) :
    ∀ cs : List (List Char), (∀ c ∈ cs, ¬ q <:+: c) → ¬ q <:+: joinSep rep cs := by
  intro cs
  induction cs with
  | nil =>
    intro _ h
    exact hq (List.infix_nil.mp h)
  | cons c cs ih =>
    cases cs with
    | nil =>
      intro hc h
      exact hc c (by simp) h
    | cons c' cs' =>
      intro hcs h
      rw [show joinSep rep (c :: c' :: cs') = c ++ (rep ++ joinSep rep (c' :: cs')) by
        simp [joinSep]] at h
      rcases middle_append_split h with h1 | h2 | ⟨u, v, hu, hv, hq', _, hvy⟩
      · exact hcs c (by simp) h1
      · rcases middle_append_split h2 with h2a | h2b | ⟨u, v, hu, _, hq', hux, _⟩
        · exact hrep h2a
        · exact ih (fun x hx => hcs x (List.mem_cons_of_mem c hx)) h2b
        · exact hK1 u ((List.mem_tails u rep).mpr hux) hu ⟨v, hq'.symm⟩
      · rcases front_append_split hvy with hva | ⟨w, hvw, _⟩
        · exact hK2 v ((List.mem_inits v rep).mpr hva) hv ⟨u, hq'.symm⟩
        · refine hK3 ⟨u, w, ?_⟩
          rw [hq', hvw]
          simp

/-! ## Consequences for `replaceAll` -/

theorem replaceAll_avoiding (pat rep q : List Char) (hpat : pat ≠ []) (hq : q ≠ [])
    (hrep : ¬ q <:+: rep)
    (hK1 : ∀ v ∈ rep.tails, v ≠ [] → ¬ v <+: q)
    (hK2 : ∀ v ∈ rep.inits, v ≠ [] → ¬ v <:+ q)
    (hK3 : ¬ rep <:+: q)
    (s : List Char) (hchunks : ∀ c ∈ chunks pat s, ¬ q <:+: c) :
    ¬ q <:+: replaceAll pat rep s := by
  rw [replaceAll_eq_joinSep pat rep hpat s]
  exact avoid_joinSep q rep hq hrep hK1 hK2 hK3 _ hchunks

theorem replaceAll_self_avoiding (pat rep : List Char) (hpat : pat ≠ [])
    (hrep : ¬ pat <:+: rep)
    (hK1 : ∀ v ∈ rep.tails, v ≠ [] → ¬ v <+: pat)
    (hK2 : ∀ v ∈ rep.inits, v ≠ [] → ¬ v <:+ pat)
    (hK3 : ¬ rep <:+: pat)
    (s : List Char) : ¬ pat <:+: replaceAll pat rep s :=
  replaceAll_avoiding pat rep pat hpat hpat hrep hK1 hK2 hK3 s
    (chunks_avoid pat hpat s.length s le_rfl)

theorem replaceAll_keeps_avoiding (pat rep q : List Char) (hpat : pat ≠ []) (hq : q ≠ [])
    (hrep : ¬ q <:+: rep)
    (hK1 : ∀ v ∈ rep.tails, v ≠ [] → ¬ v <+: q)
    (hK2 : ∀ v ∈ rep.inits, v ≠ [] → ¬ v <:+ q)
    (hK3 : ¬ rep <:+: q)
    (s : List Char) (hs : ¬ q <:+: s) : ¬ q <:+: replaceAll pat rep s :=
  replaceAll_avoiding pat rep q hpat hq hrep hK1 hK2 hK3 s
    (fun c hc hqc => hs (hqc.trans (chunks_within pat s.length s le_rfl c hc)))

theorem replaceAll_id_of_avoiding_aux (pat rep : List Char) (hpat : pat ≠ []) :
    ∀ n s, s.length ≤ n → ¬ pat <:+: s → replaceAll pat rep s = s := by
  intro n
  induction n with
  | zero =>
    intro s hs _
    have h0 : s = [] := List.length_eq_zero.mp (Nat.le_zero.mp hs)
    subst h0
    exact replaceAll_nil pat rep
  | succ n ih =>
    intro s hs hinf
    cases s with
    | nil => exact replaceAll_nil pat rep
    | cons c t =>
      rw [replaceAll_cons, if_neg, ih t (by simpa using hs)
        (fun hcon => hinf (List.infix_cons hcon))]
      intro hcond
      exact hinf (List.IsPrefix.isInfix ( List.isPrefixOf_iff_prefix.mp hcond.2))

theorem replaceAll_id_of_avoiding (pat rep : List Char) (hpat : pat ≠ [])
    (s : List Char) (hs : ¬ pat <:+: s) : replaceAll pat rep s = s :=
  replaceAll_id_of_avoiding_aux pat rep hpat s.length s le_rfl hs

theorem mem_joinSep {a : Char} (rep : List Char) :
    ∀ cs, a ∈ joinSep rep cs → (∃ c ∈ cs, a ∈ c) ∨ a ∈ rep := by
  intro cs
  induction cs with
  | nil =>
    intro h
    exact absurd h (by simp [joinSep])
  | cons c cs ih =>
    cases cs with
    | nil =>
      intro h
      exact Or.inl ⟨c, by simp, h⟩
    | cons c' cs' =>
      intro h
      rw [show joinSep rep (c :: c' :: cs') = c ++ rep ++ joinSep rep (c' :: cs') from rfl] at h
      rcases List.mem_append.mp h with h1 | h2
      · rcases List.mem_append.mp h1 with h1a | h1b
        · exact Or.inl ⟨c, by simp, h1a⟩
        · exact Or.inr h1b
      · rcases ih h2 with ⟨d, hd, had⟩ | hrep
        · exact Or.inl ⟨d, List.mem_cons_of_mem c hd, had⟩
        · exact Or.inr hrep

theorem mem_replaceAll (pat rep : List Char) (hpat : pat ≠ []) (s : List Char) :
    ∀ a ∈ replaceAll pat rep s, a ∈ s ∨ a ∈ rep := by
  intro a ha
  rw [replaceAll_eq_joinSep pat rep hpat s] at ha
  rcases mem_joinSep rep _ ha with ⟨c, hc, hac⟩ | h
  · exact Or.inl ((chunks_within pat s.length s le_rfl c hc).subset hac)
  · exact Or.inr h

/-! ## Adjacency (`Chain'`) infrastructure -/

theorem chain'_of_suffix {R : Char → Char → Prop} {l l' : List Char}
    (h : l' <:+ l) (hc : l.Chain' R) : l'.Chain' R := by
  obtain ⟨w, rfl⟩ := h
  exact (List.chain'_append.mp hc).2.1

theorem chain'_of_middle {R : Char → Char → Prop} {l l' : List Char}
    (h : l' <:+: l) (hc : l.Chain' R) : l'.Chain' R := by
  obtain ⟨u, v, rfl⟩ := h
  exact (List.chain'_append.mp (List.chain'_append.mp hc).1).2.1

theorem dropWhile_head_not (p : Char → Bool) :
    ∀ (t : List Char) (d : Char) (t' : List Char), t.dropWhile p = d :: t' → p d = false := by
  intro t
  induction t with
  | nil =>
    intro d t' h
    exact absurd h (by simp)
  | cons c t ih =>
    intro d t' h
    rw [List.dropWhile_cons] at h
    split at h
    · exact ih d t' h
    · rename_i hc
      injection h with h1 _
      subst h1
      simpa using hc

theorem mem_collapseRuns (p : Char → Bool) (rep : Char) :
    ∀ n s, s.length ≤ n → ∀ a ∈ collapseRuns p rep s, a = rep ∨ (a ∈ s ∧ p a = false) := by
  intro n
  induction n with
  | zero =>
    intro s hs a ha
    have h0 : s = [] := List.length_eq_zero.mp (Nat.le_zero.mp hs)
    subst h0
    exact absurd ha (by simp [collapseRuns_nil])
  | succ n ih =>
    intro s hs a ha
    cases s with
    | nil => exact absurd ha (by simp [collapseRuns_nil])
    | cons c t =>
      rw [collapseRuns_cons] at ha
      by_cases hc : p c
      · rw [if_pos hc] at ha
        rcases List.mem_cons.mp ha with rfl | hmem
        · exact Or.inl rfl
        · have hlen : (t.dropWhile p).length ≤ n := by
            have := (List.dropWhile_suffix (l := t) p).length_le
            simp only [List.length_cons] at hs
            omega
          rcases ih _ hlen a hmem with h1 | ⟨h2, h3⟩
          · exact Or.inl h1
          · exact Or.inr ⟨List.mem_cons_of_mem c ((List.dropWhile_suffix p).subset h2), h3⟩
      · rw [if_neg hc] at ha
        rcases List.mem_cons.mp ha with rfl | hmem
        · exact Or.inr ⟨List.mem_cons_self a t, by simpa using hc⟩
        · rcases ih t (by simpa using hs) a hmem with h1 | ⟨h2, h3⟩
          · exact Or.inl h1
          · exact Or.inr ⟨List.mem_cons_of_mem c h2, h3⟩

theorem collapseRuns_head? (p : Char → Bool) (rep : Char) (c : Char) (t : List Char) :
    (collapseRuns p rep (c :: t)).head? = some (if p c then rep else c) := by
  rw [collapseRuns_cons]
  by_cases hc : p c <;> simp [hc]

theorem collapseRuns_chain (p : Char → Bool) (rep : Char) :
    ∀ n s, s.length ≤ n → (collapseRuns p rep s).Chain' (notBoth p) := by
  intro n
  induction n with
  | zero =>
    intro s hs
    have h0 : s = [] := List.length_eq_zero.mp (Nat.le_zero.mp hs)
    subst h0
    simp [collapseRuns_nil]
  | succ n ih =>
    intro s hs
    cases s with
    | nil => simp [collapseRuns_nil]
    | cons c t =>
      rw [collapseRuns_cons]
      by_cases hc : p c
      · rw [if_pos hc]
        refine List.chain'_cons'.mpr ⟨?_, ?_⟩
        · intro b hb
          cases hd : t.dropWhile p with
          | nil => simp [hd, collapseRuns_nil] at hb
          | cons d t' =>
            rw [hd, collapseRuns_head?] at hb
            have hpd : p d = false := dropWhile_head_not p t d t' hd
            rw [if_neg (by simp [hpd])] at hb
            simp only [Option.mem_def, Option.some.injEq] at hb
            subst hb
            exact fun hcon => by simp [hpd] at hcon
        · refine ih _ ?_
          have := (List.dropWhile_suffix (l := t) p).length_le
          simp only [List.length_cons] at hs
          omega
      · rw [if_neg hc]
        refine List.chain'_cons'.mpr ⟨?_, ih t (by simpa using hs)⟩
        intro b _
        exact fun hcon => by simp [hcon.1] at hc

theorem collapseRuns_fixed (p : Char → Bool) (rep : Char) :
    ∀ n s, s.length ≤ n → (∀ a ∈ s, p a = true → a = rep) →
      s.Chain' (notBoth p) → collapseRuns p rep s = s := by
  intro n
  induction n with
  | zero =>
    intro s hs _ _
    have h0 : s = [] := List.length_eq_zero.mp (Nat.le_zero.mp hs)
    subst h0
    exact collapseRuns_nil p rep
  | succ n ih =>
    intro s hs hmem hch
    cases s with
    | nil => exact collapseRuns_nil p rep
    | cons c t =>
      rw [collapseRuns_cons]
      by_cases hc : p c
      · rw [if_pos hc]
        have hcrep : c = rep := hmem c (List.mem_cons_self c t) hc
        have hdw : t.dropWhile p = t := by
          cases t with
          | nil => rfl
          | cons d t' =>
            have hnotd : ¬(p c = true ∧ p d = true) := (List.chain'_cons.mp hch).1
            have hpd : p d = false := by
              cases hpd : p d
              · rfl
              · exact absurd ⟨hc, hpd⟩ hnotd
            rw [List.dropWhile_cons, if_neg (by simp [hpd])]
        rw [hdw, hcrep]
        refine congrArg (rep :: ·) (ih t (by simpa using hs) ?_ ?_)
        · exact fun a ha hpa => hmem a (List.mem_cons_of_mem c ha) hpa
        · exact hch.tail
      · rw [if_neg hc]
        refine congrArg (c :: ·) (ih t (by simpa using hs) ?_ hch.tail)
        exact fun a ha hpa => hmem a (List.mem_cons_of_mem c ha) hpa

theorem collapseRuns_chain_preserve (pcl : Char → Bool) (rep : Char) (q : Char → Bool)
    (hq : q rep = false) :
    ∀ n s, s.length ≤ n → s.Chain' (notBoth q) →
      (collapseRuns pcl rep s).Chain' (notBoth q) := by
  intro n
  induction n with
  | zero =>
    intro s hs _
    have h0 : s = [] := List.length_eq_zero.mp (Nat.le_zero.mp hs)
    subst h0
    simp [collapseRuns_nil]
  | succ n ih =>
    intro s hs hch
    cases s with
    | nil => simp [collapseRuns_nil]
    | cons c t =>
      rw [collapseRuns_cons]
      by_cases hc : pcl c
      · rw [if_pos hc]
        refine List.chain'_cons'.mpr ⟨?_, ?_⟩
        · intro b _
          exact fun hcon => by simp [hq] at hcon
        · refine ih _ ?_ (chain'_of_suffix (List.dropWhile_suffix pcl) hch.tail)
          have := (List.dropWhile_suffix (l := t) pcl).length_le
          simp only [List.length_cons] at hs
          omega
      · rw [if_neg hc]
        refine List.chain'_cons'.mpr ⟨?_, ih t (by simpa using hs) hch.tail⟩
        intro b hb
        cases t with
        | nil => simp [collapseRuns_nil] at hb
        | cons d t' =>
          rw [collapseRuns_head?] at hb
          simp only [Option.mem_def, Option.some.injEq] at hb
          subst hb
          by_cases hpd : pcl d
          · rw [if_pos hpd]
            exact fun hcon => by simp [hq] at hcon
          · rw [if_neg hpd]
            exact (List.chain'_cons.mp hch).1

theorem chain'_joinSep (q : Char → Bool) (rep : List Char) (hrepne : rep ≠ [])
    (hrep : rep.Chain' (notBoth q))
    (hhead : ∀ a ∈ rep.head?, q a = false)
    (hlast : ∀ a ∈ rep.getLast?, q a = false) :
    ∀ cs, (∀ c ∈ cs, c.Chain' (notBoth q)) → (joinSep rep cs).Chain' (notBoth q) := by
  intro cs
  induction cs with
  | nil =>
    intro _
    simp [joinSep]
  | cons c cs ih =>
    cases cs with
    | nil =>
      intro hc
      exact hc c (by simp)
    | cons c' cs' =>
      intro hcs
      rw [show joinSep rep (c :: c' :: cs') = c ++ (rep ++ joinSep rep (c' :: cs')) by
        simp [joinSep]]
      refine List.chain'_append.mpr ⟨hcs c (by simp), ?_, ?_⟩
      · refine List.chain'_append.mpr ⟨hrep, ih (fun x hx => hcs x (List.mem_cons_of_mem c hx)), ?_⟩
        intro x hx y _
        exact fun hcon => by simp [hlast x hx] at hcon
      · intro x _ y hy
        rw [List.head?_append] at hy
        cases hrep0 : rep.head? with
        | none => exact absurd (List.head?_eq_none_iff.mp hrep0) hrepne
        | some a =>
          rw [hrep0] at hy
          simp only [Option.or_some, Option.mem_def, Option.some.injEq] at hy
          subst hy
          exact fun hcon => by simp [hhead a (by simp [hrep0])] at hcon

theorem chain'_replaceAll (pat rep : List Char) (q : Char → Bool) (hpat : pat ≠ [])
    (hrepne : rep ≠ [])
    (hrep : rep.Chain' (notBoth q))
    (hhead : ∀ a ∈ rep.head?, q a = false)
    (hlast : ∀ a ∈ rep.getLast?, q a = false)
    (s : List Char) (hs : s.Chain' (notBoth q)) :
    (replaceAll pat rep s).Chain' (notBoth q) := by
  rw [replaceAll_eq_joinSep pat rep hpat s]
  refine chain'_joinSep q rep hrepne hrep hhead hlast _ (fun c hc => ?_)
  exact chain'_of_middle (chunks_within pat s.length s le_rfl c hc) hs

theorem chain'_of_chainB (p : Char → Bool) :
    ∀ l, chainB p l = true → l.Chain' (notBoth p) := by
  intro l
  induction l with
  | nil =>
    intro _
    simp
  | cons a t ih =>
    cases t with
    | nil =>
      intro _
      simp
    | cons b t' =>
      intro h
      rw [chainB, Bool.and_eq_true] at h
      obtain ⟨h1, h2⟩ := h
      refine List.chain'_cons.mpr ⟨?_, ih h2⟩
      intro hcon
      rw [hcon.1, hcon.2] at h1
      simp at h1

theorem replaceAll_self_avoid (pat rep : List Char) (hpat : pat ≠ [])
    (hc : AvoidConds pat rep) (s : List Char) : ¬ pat <:+: replaceAll pat rep s :=
  replaceAll_self_avoiding pat rep hpat hc.1 hc.2.1 hc.2.2.1 hc.2.2.2 s

theorem replaceAll_keep_avoid (pat rep q : List Char) (hpat : pat ≠ []) (hq : q ≠ [])
    (hc : AvoidConds q rep) (s : List Char) (hs : ¬ q <:+: s) :
    ¬ q <:+: replaceAll pat rep s :=
  replaceAll_keeps_avoiding pat rep q hpat hq hc.1 hc.2.1 hc.2.2.1 hc.2.2.2 s hs

theorem stageInv_replaceAll (pat rep : List Char) (hpat : pat ≠ [])
    (hrep : RepInv rep) (s : List Char) (hs : StageInv s) :
    StageInv (replaceAll pat rep s) := by
  obtain ⟨hA, hN, hS, hCN, hCS⟩ := hs
  obtain ⟨hne, hrA, hrN, hrS, hcbN, hcbS, hh, hl⟩ := hrep
  refine ⟨?_, ?_, ?_, ?_, ?_⟩
  · intro a ha
    rcases mem_replaceAll pat rep hpat s a ha with h | h
    · exact hA a h
    · exact hrA a h
  · intro a ha hpa
    rcases mem_replaceAll pat rep hpat s a ha with h | h
    · exact hN a h hpa
    · exact hrN a h hpa
  · intro a ha hpa
    rcases mem_replaceAll pat rep hpat s a ha with h | h
    · exact hS a h hpa
    · exact hrS a h hpa
  · exact chain'_replaceAll pat rep pNL hpat hne (chain'_of_chainB pNL rep hcbN)
      (fun a ha => (hh a ha).1) (fun a ha => (hl a ha).1) s hCN
  · exact chain'_replaceAll pat rep pST hpat hne (chain'_of_chainB pST rep hcbS)
      (fun a ha => (hh a ha).2) (fun a ha => (hl a ha).2) s hCS

theorem pSP_imp_pST (a : Char) (h : pSP a = true) : pST a = true := by
  unfold pSP at h
  unfold pST
  rw [h]
  rfl

theorem collapseRuns_pSP_fixed (l : List Char) (hch : l.Chain' (notBoth pST)) :
    collapseRuns pSP ' ' l = l := by
  refine collapseRuns_fixed pSP ' ' l.length l le_rfl ?_ ?_
  · intro a _ ha
    unfold pSP at ha
    exact eq_of_beq ha
  · exact hch.imp (fun a b hab hcon => hab ⟨pSP_imp_pST a hcon.1, pSP_imp_pST b hcon.2⟩)

theorem preprocessL_fixed_of_ascii (s : List Char)
    (hascii : ∀ c ∈ s, isAsciiCh c = true) :
    preprocessL (preprocessL s) = preprocessL s := by
  obtain ⟨s1, hs1⟩ : ∃ x, x = collapseRuns pNL '\n' s := ⟨_, rfl⟩
  obtain ⟨s2, hs2⟩ : ∃ x, x = collapseRuns pST ' ' s1 := ⟨_, rfl⟩
  obtain ⟨s3, hs3⟩ : ∃ x, x = replaceAll ("Sen Faktur".toList) ("Seri Faktur".toList) s2 :=
    ⟨_, rfl⟩
  obtain ⟨s4, hs4⟩ : ∃ x, x = replaceAll ("NPWP |".toList) ("NPWP :".toList) s3 := ⟨_, rfl⟩
  obtain ⟨s5, hs5⟩ : ∃ x, x = replaceAll ("NPWP |".toList) ("NPWP :".toList) s4 := ⟨_, rfl⟩
  obtain ⟨s6, hs6⟩ : ∃ x, x = replaceAll ("NPWP :".toList) ("NPWP:".toList) s5 := ⟨_, rfl⟩
  obtain ⟨s7, hs7⟩ : ∃ x, x = replaceAll ("NIKPaspor".toList) ("NIK/Paspor".toList) s6 :=
    ⟨_, rfl⟩
  obtain ⟨s8, hs8⟩ : ∃ x, x = replaceAll ("Palak".toList) ("Pajak".toList) s7 := ⟨_, rfl⟩
  have hy : preprocessL s = collapseRuns pSP ' ' (s8.filter isAsciiCh) := by
    rw [hs8, hs7, hs6, hs5, hs4, hs3, hs2, hs1]
    rfl
  -- stage 1: newline runs collapsed
  have h1A : ∀ a ∈ s1, isAsciiCh a = true := by
    rw [hs1]
    intro a ha
    rcases mem_collapseRuns pNL '\n' s.length s le_rfl a ha with rfl | ⟨h, _⟩
    · decide
    · exact hascii a h
  have h1N : ∀ a ∈ s1, pNL a = true → a = '\n' := by
    rw [hs1]
    intro a ha hpa
    rcases mem_collapseRuns pNL '\n' s.length s le_rfl a ha with rfl | ⟨_, hf⟩
    · rfl
    · rw [hpa] at hf
      exact Bool.noConfusion hf
  have h1CN : s1.Chain' (notBoth pNL) := by
    rw [hs1]
    exact collapseRuns_chain pNL '\n' s.length s le_rfl
  -- stage 2: space/tab runs collapsed
  have h2inv : StageInv s2 := by
    rw [hs2]
    refine ⟨?_, ?_, ?_, ?_, ?_⟩
    · intro a ha
      rcases mem_collapseRuns pST ' ' s1.length s1 le_rfl a ha with rfl | ⟨h, _⟩
      · decide
      · exact h1A a h
    · intro a ha hpa
      rcases mem_collapseRuns pST ' ' s1.length s1 le_rfl a ha with rfl | ⟨h, _⟩
      · exact absurd hpa (by decide)
      · exact h1N a h hpa
    · intro a ha hpa
      rcases mem_collapseRuns pST ' ' s1.length s1 le_rfl a ha with rfl | ⟨_, hf⟩
      · rfl
      · rw [hpa] at hf
        exact Bool.noConfusion hf
    · exact collapseRuns_chain_preserve pST ' ' pNL (by decide) s1.length s1 le_rfl h1CN
    · exact collapseRuns_chain pST ' ' s1.length s1 le_rfl
  -- stage 3: Sen Faktur → Seri Faktur
  have h3inv : StageInv s3 := by
    rw [hs3]
    exact stageInv_replaceAll _ _ (by decide) (by decide) s2 h2inv
  have h3F1 : ¬ ("Sen Faktur".toList) <:+: s3 := by
    rw [hs3]
    exact replaceAll_self_avoid _ _ (by decide) (by decide) s2
  -- stage 4: first NPWP | → NPWP :
  have h4inv : StageInv s4 := by
    rw [hs4]
    exact stageInv_replaceAll _ _ (by decide) (by decide) s3 h3inv
  have h4F1 : ¬ ("Sen Faktur".toList) <:+: s4 := by
    rw [hs4]
    exact replaceAll_keep_avoid _ _ _ (by decide) (by decide) (by decide) s3 h3F1
  have h4F2 : ¬ ("NPWP |".toList) <:+: s4 := by
    rw [hs4]
    exact replaceAll_self_avoid _ _ (by decide) (by decide) s3
  -- stage 5 is the identity: the pattern is already gone
  have h5eq : s5 = s4 := by
    rw [hs5]
    exact replaceAll_id_of_avoiding _ _ (by decide) s4 h4F2
  rw [h5eq] at hs6
  -- stage 6: NPWP : → NPWP:
  have h6inv : StageInv s6 := by
    rw [hs6]
    exact stageInv_replaceAll _ _ (by decide) (by decide) s4 h4inv
  have h6F1 : ¬ ("Sen Faktur".toList) <:+: s6 := by
    rw [hs6]
    exact replaceAll_keep_avoid _ _ _ (by decide) (by decide) (by decide) s4 h4F1
  have h6F2 : ¬ ("NPWP |".toList) <:+: s6 := by
    rw [hs6]
    exact replaceAll_keep_avoid _ _ _ (by decide) (by decide) (by decide) s4 h4F2
  have h6F3 : ¬ ("NPWP :".toList) <:+: s6 := by
    rw [hs6]
    exact replaceAll_self_avoid _ _ (by decide) (by decide) s4
  -- stage 7: NIKPaspor → NIK/Paspor
  have h7inv : StageInv s7 := by
    rw [hs7]
    exact stageInv_replaceAll _ _ (by decide) (by decide) s6 h6inv
  have h7F1 : ¬ ("Sen Faktur".toList) <:+: s7 := by
    rw [hs7]
    exact replaceAll_keep_avoid _ _ _ (by decide) (by decide) (by decide) s6 h6F1
  have h7F2 : ¬ ("NPWP |".toList) <:+: s7 := by
    rw [hs7]
    exact replaceAll_keep_avoid _ _ _ (by decide) (by decide) (by decide) s6 h6F2
  have h7F3 : ¬ ("NPWP :".toList) <:+: s7 := by
    rw [hs7]
    exact replaceAll_keep_avoid _ _ _ (by decide) (by decide) (by decide) s6 h6F3
  have h7F4 : ¬ ("NIKPaspor".toList) <:+: s7 := by
    rw [hs7]
    exact replaceAll_self_avoid _ _ (by decide) (by decide) s6
  -- stage 8: Palak → Pajak
  have h8inv : StageInv s8 := by
    rw [hs8]
    exact stageInv_replaceAll _ _ (by decide) (by decide) s7 h7inv
  have h8F1 : ¬ ("Sen Faktur".toList) <:+: s8 := by
    rw [hs8]
    exact replaceAll_keep_avoid _ _ _ (by decide) (by decide) (by decide) s7 h7F1
  have h8F2 : ¬ ("NPWP |".toList) <:+: s8 := by
    rw [hs8]
    exact replaceAll_keep_avoid _ _ _ (by decide) (by decide) (by decide) s7 h7F2
  have h8F3 : ¬ ("NPWP :".toList) <:+: s8 := by
    rw [hs8]
    exact replaceAll_keep_avoid _ _ _ (by decide) (by decide) (by decide) s7 h7F3
  have h8F4 : ¬ ("NIKPaspor".toList) <:+: s8 := by
    rw [hs8]
    exact replaceAll_keep_avoid _ _ _ (by decide) (by decide) (by decide) s7 h7F4
  have h8F5 : ¬ ("Palak".toList) <:+: s8 := by
    rw [hs8]
    exact replaceAll_self_avoid _ _ (by decide) (by decide) s7
  obtain ⟨h8A, h8N, h8S, h8CN, h8CS⟩ := h8inv
  -- stages 9 and 10 are the identity on the ASCII path
  have h9eq : s8.filter isAsciiCh = s8 := List.filter_eq_self.mpr h8A
  have h10eq : collapseRuns pSP ' ' s8 = s8 := collapseRuns_pSP_fixed s8 h8CS
  have hy8 : preprocessL s = s8 := by
    rw [hy, h9eq, h10eq]
  -- the second pass is the identity stage by stage
  have q1 : collapseRuns pNL '\n' s8 = s8 :=
    collapseRuns_fixed pNL '\n' s8.length s8 le_rfl h8N h8CN
  have q2 : collapseRuns pST ' ' s8 = s8 :=
    collapseRuns_fixed pST ' ' s8.length s8 le_rfl h8S h8CS
  have q3 : replaceAll ("Sen Faktur".toList) ("Seri Faktur".toList) s8 = s8 :=
    replaceAll_id_of_avoiding _ _ (by decide) s8 h8F1
  have q4 : replaceAll ("NPWP |".toList) ("NPWP :".toList) s8 = s8 :=
    replaceAll_id_of_avoiding _ _ (by decide) s8 h8F2
  have q6 : replaceAll ("NPWP :".toList) ("NPWP:".toList) s8 = s8 :=
    replaceAll_id_of_avoiding _ _ (by decide) s8 h8F3
  have q7 : replaceAll ("NIKPaspor".toList) ("NIK/Paspor".toList) s8 = s8 :=
    replaceAll_id_of_avoiding _ _ (by decide) s8 h8F4
  have q8 : replaceAll ("Palak".toList) ("Pajak".toList) s8 = s8 :=
    replaceAll_id_of_avoiding _ _ (by decide) s8 h8F5
  have hpass2 : preprocessL s8 = s8 := by
    show collapseRuns pSP ' '
      ((replaceAll ("Palak".toList) ("Pajak".toList)
        (replaceAll ("NIKPaspor".toList) ("NIK/Paspor".toList)
          (replaceAll ("NPWP :".toList) ("NPWP:".toList)
            (replaceAll ("NPWP |".toList) ("NPWP :".toList)
              (replaceAll ("NPWP |".toList) ("NPWP :".toList)
                (replaceAll ("Sen Faktur".toList) ("Seri Faktur".toList)
                  (collapseRuns pST ' ' (collapseRuns pNL '\n' s8)))))))).filter isAsciiCh) = s8
    rw [q1, q2, q3, q4, q4, q6, q7, q8, h9eq, h10eq]
  rw [hy8, hpass2]

/-- C3 counterexample: the normalizer is not idempotent on arbitrary
input.  Removing the non-ASCII character of `"\né\n"` happens after the
newline-run collapse, so the first pass leaves two adjacent newlines that
only the second pass collapses. -/
theorem C3_counterexample :
    preprocess_ocr_text (preprocess_ocr_text "\né\n") ≠ preprocess_ocr_text "\né\n" := by
  decide

set_option maxHeartbeats 1000000 in
/-- C3 (amended): on every input string whose characters are all ASCII,
applying the normalizer twice equals applying it once. -/
theorem C3_preprocess_idempotent_ascii (s : String)
    (h : ∀ c ∈ s.data, isAsciiCh c = true) :
    preprocess_ocr_text (preprocess_ocr_text s) = preprocess_ocr_text s := by
  have hd : (String.mk (preprocessL s.data)).data = preprocessL s.data := rfl
  unfold preprocess_ocr_text
  rw [hd, preprocessL_fixed_of_ascii s.data h]

/-- Witness for C3 (amended) on a concrete ASCII input exercising every
substitution of the normalizer. -/
theorem C3_preprocess_idempotent_ascii_witness :
    preprocess_ocr_text (preprocess_ocr_text "Sen Faktur  NPWP | 123\r\n\r\nPalak x") =
      preprocess_ocr_text "Sen Faktur  NPWP | 123\r\n\r\nPalak x" :=
  C3_preprocess_idempotent_ascii "Sen Faktur  NPWP | 123\r\n\r\nPalak x" (by decide)

end EFaktur

